import Mathlib

/-!
Verification of the `fit` parallel git runner.

The development shallowly embeds the two runner implementations
(`src/rust/src/runner.rs` and `src/nit-rust/src/runner.rs`):

* `GitCommand.spawn` / `command_string_with_scheme` (command construction and
  dry-run rendering);
* `format_repo_name` (fixed-width label formatting, modelled at the byte level
  so that the byte-slice panic of `&name[..20]` is visible);
* `run_parallel` strategy selection (`dry-run` / unlimited / limited);
* the polling bounded scheduler `run_parallel_limited` as a deterministic state
  machine parameterised by an environment describing, for each target index,
  whether its spawn succeeds, for how many poll passes its process keeps
  running, and whether status retrieval fails when the process ends;
* the thread-per-target implementation's ordered emission (results sorted by
  original index) and its counting semaphore as a transition system.
-/

namespace Fit

/-! ## Commands (`GitCommand` in both runner.rs files) -/

/-- URL scheme to force for git operations (`enum UrlScheme`). -/
inductive UrlScheme
  | ssh
  | https
deriving DecidableEq

/-- A git command ready to be executed against a repository
(`struct GitCommand { repo_path, args }`); the path is kept as its display
string. -/
structure GitCommand where
  repoPath : String
  args : List String
deriving DecidableEq

/-- `Vec::join(" ")` as used by `self.args.join(" ")`. -/
def joinSpace : List String → String
  | [] => ""
  | a :: rest => rest.foldl (fun acc x => acc ++ " " ++ x) a

/-- The `-c url.….insteadOf=…` argument pair that `GitCommand::spawn` inserts
for a forced URL scheme (the exact argument bytes given to the process). -/
def schemeSpawnArgs : Option UrlScheme → List String
  | some .ssh => ["-c", "url.git@github.com:.insteadOf=https://github.com/"]
  | some .https => ["-c", "url.https://github.com/.insteadOf=git@github.com:"]
  | none => []

/-- The program `GitCommand::spawn` executes (`Command::new("git")`). -/
def spawnProgram : String := "git"

/-- The argument list `GitCommand::spawn` passes to the process:
scheme override first, then `-C <repo_path>`, then the command args. -/
def spawnArgs (c : GitCommand) (scheme : Option UrlScheme) : List String :=
  schemeSpawnArgs scheme ++ ["-C", c.repoPath] ++ c.args

/-- The scheme text used by `command_string_with_scheme` for display
(note the quotation marks and the trailing space, present in the source). -/
def schemeDisplayArgs : Option UrlScheme → String
  | some .ssh => "-c \"url.git@github.com:.insteadOf=https://github.com/\" "
  | some .https => "-c \"url.https://github.com/.insteadOf=git@github.com:\" "
  | none => ""

/-- `GitCommand::command_string_with_scheme`:
`format!("git {}-C {} {}", scheme_args, self.repo_path.display(), self.args.join(" "))`. -/
def commandStringWithScheme (c : GitCommand) (scheme : Option UrlScheme) : String :=
  "git " ++ schemeDisplayArgs scheme ++ "-C " ++ c.repoPath ++ " " ++ joinSpace c.args

/-- The invocation `spawn` executes, flattened to bytes: program and argument
bytes separated by single spaces. -/
def flattenInvocation (prog : String) (args : List String) : String :=
  joinSpace (prog :: args)

/-! ## Label formatting (`format_repo_name`), modelled at the byte level.

Rust's `name.len()` counts bytes and `&name[..k]` slices bytes, panicking when
`k` is not a UTF-8 character boundary, so a repo name is modelled as its list
of bytes.  `format!("[{:<width$}]", s)` pads with spaces on the right up to
`width` characters (a character starts at every non-continuation byte). -/

/-- `MAX_REPO_NAME_WIDTH` from runner.rs. -/
def MAX_REPO_NAME_WIDTH : Nat := 24

/-- A byte value begins a UTF-8 character (it is not a continuation byte
`0x80..=0xBF`).  `str::is_char_boundary` at an interior offset is exactly this
test on the byte at that offset. -/
def isCharBoundaryByte (b : Nat) : Bool := b < 128 || 192 ≤ b

/-- Number of characters of a UTF-8 byte string: one per non-continuation
byte. -/
def charCount (bytes : List Nat) : Nat := (bytes.filter isCharBoundaryByte).length

/-- The bytes of the truncation marker `"-..."` appended by
`format!("{}-...", &name[..MAX_REPO_NAME_WIDTH - 4])`. -/
def truncMarker : List Nat := [45, 46, 46, 46]

/-- `format!("{:<width$}", s)` with `width = MAX_REPO_NAME_WIDTH`: left-align
`s`, filling with spaces (byte 32) on the right up to the width in
characters. -/
def padDisplay (display : List Nat) : List Nat :=
  display ++ List.replicate (MAX_REPO_NAME_WIDTH - charCount display) 32

/-- `format_repo_name`, byte level.  Returns `none` exactly when the source
panics: the name is longer than `MAX_REPO_NAME_WIDTH` bytes and byte offset
`MAX_REPO_NAME_WIDTH - 4` is not a character boundary, so `&name[..20]`
panics.  Bytes 91 and 93 are `[` and `]`. -/
def formatRepoName (name : List Nat) : Option (List Nat) :=
  if MAX_REPO_NAME_WIDTH < name.length then
    if isCharBoundaryByte (name.getD (MAX_REPO_NAME_WIDTH - 4) 0) then
      some ([91] ++ padDisplay (name.take (MAX_REPO_NAME_WIDTH - 4) ++ truncMarker) ++ [93])
    else
      none
  else
    some ([91] ++ padDisplay name ++ [93])

/-- Bytes of an ASCII string (for concrete examples). -/
def strBytes (s : String) : List Nat := s.data.map Char.toNat

/-! ## Strategy selection and dry-run (`run_parallel` in both files) -/

/-- Which execution path `run_parallel` takes. -/
inductive Strategy
  | dryRun
  | unlimited
  | limited
deriving DecidableEq

/-- Strategy selection of `src/rust/src/runner.rs::run_parallel`:
dry-run first, then `if max_conn == 0 || max_conn >= repos.len()` unlimited,
else limited. -/
def selectStrategy (dryRun : Bool) (maxConn numRepos : Nat) : Strategy :=
  if dryRun then .dryRun
  else if maxConn = 0 ∨ numRepos ≤ maxConn then .unlimited
  else .limited

/-- Semaphore gating decision of `src/nit-rust/src/runner.rs::run_parallel`:
`let use_semaphore = max_workers > 0 && max_workers < repos.len()`. -/
def useSemaphore (maxWorkers numRepos : Nat) : Bool :=
  decide (0 < maxWorkers) && decide (maxWorkers < numRepos)

/-- An observable action of `run_parallel`: printing a line, or spawning the
process for the target at a given index. -/
inductive Effect
  | println (line : String)
  | spawnTarget (index : Nat)
deriving DecidableEq

/-- The dry-run branch of `run_parallel`: for each repo in order, build its
command and print `command_string_with_scheme`; nothing is spawned. -/
def dryRunEffects (cmds : List GitCommand) (scheme : Option UrlScheme) : List Effect :=
  cmds.map fun c => .println (commandStringWithScheme c scheme)

/-! ## The polling bounded scheduler (`run_parallel_limited`)

The scheduler is embedded as a deterministic state machine.  Real runs are
nondeterministic only in process behaviour, which is captured by an
environment: for each target index, whether `spawn` succeeds, for how many
poll passes the process keeps running before `try_wait` reports completion,
and whether status retrieval fails (`try_wait` returns `Err`) at that point.
Quantifying over environments quantifies over all completion orders. -/

/-- Process behaviour of one run: `spawnOk i` tells whether spawning target
`i` succeeds, `dur i` for how many poll passes its process stays running, and
`pollErr i` whether `try_wait` returns `Err` when it ends. -/
structure Env where
  spawnOk : Nat → Bool
  dur : Nat → Nat
  pollErr : Nat → Bool

/-- `struct ActiveProcess { index, .. }`: a running child, with the number of
poll passes it has survived standing in for its elapsed run time. -/
structure ActiveProc where
  index : Nat
  age : Nat
deriving DecidableEq

/-- `struct CompletedOutput { index, output }`, with the output abstracted to
whether it is the `Err` case (spawn failure or status-retrieval failure). -/
structure CompletedOutput where
  index : Nat
  isErr : Bool
deriving DecidableEq

/-- `Vec::swap_remove(i)`: replace element `i` with the last element and pop
the last. -/
def swapRemove {α : Type} (l : List α) (i : Nat) : List α :=
  match l.getLast? with
  | none => l
  | some last => (l.set i last).dropLast

/-- `completed.iter().position(|c| c.index == k)`. -/
def position (l : List CompletedOutput) (k : Nat) : Option Nat :=
  match l with
  | [] => none
  | c :: rest => if c.index = k then some 0 else (position rest k).map (· + 1)

theorem position_lt {l : List CompletedOutput} {k p : Nat}
    (h : position l k = some p) : p < l.length := by
  induction l generalizing p with
  | nil => simp [position] at h
  | cons c rest ih =>
    by_cases hc : c.index = k
    · rw [position, if_pos hc] at h
      cases h
      simp
    · rw [position, if_neg hc, Option.map_eq_some'] at h
      obtain ⟨q, hq, rfl⟩ := h
      have := ih hq
      simp only [List.length_cons]
      omega

/-- Result of `child.try_wait()` for one active process in one poll pass. -/
inductive PollRes
  | running
  | finished (isErr : Bool)

/-- One `try_wait` in the model: the process is still running while its age
is below its duration; at its end, status retrieval errors iff `pollErr`. -/
def pollOne (env : Env) (p : ActiveProc) : PollRes :=
  if p.age < env.dur p.index then .running
  else .finished (env.pollErr p.index)

theorem swapRemove_length {α : Type} {l : List α} (h : l ≠ []) (i : Nat) :
    (swapRemove l i).length = l.length - 1 := by
  unfold swapRemove
  match hl : l.getLast? with
  | none => exact absurd (List.getLast?_eq_none_iff.mp hl) h
  | some last => simp [List.length_set]

/-- The inner poll pass of the main loop: walk `active` with an index `i`,
`try_wait` each process; a finished or errored one is `swap_remove`d (so the
element swapped in from the end is examined next at the same position) and its
outcome appended to `completed`; a still-running one is kept, its age
advanced by this pass. -/
def pollLoop (env : Env) (i : Nat) (active : List ActiveProc)
    (completed : List CompletedOutput) : List ActiveProc × List CompletedOutput :=
  if h : i < active.length then
    let p := active.get ⟨i, h⟩
    match pollOne env p with
    | .running => pollLoop env (i + 1) (active.set i ⟨p.index, p.age + 1⟩) completed
    | .finished e => pollLoop env i (swapRemove active i) (completed ++ [⟨p.index, e⟩])
  else (active, completed)
termination_by active.length - i
decreasing_by
  · simp only [List.length_set]
    omega
  · have hne : active ≠ [] := by
      intro hn
      rw [hn] at h
      simp at h
    rw [swapRemove_length hne]
    omega

/-- `spawn_process`: try to start target `index`; on success push it onto
`active` (age 0), on failure immediately record an `Err` outcome for it in
`completed`. -/
def spawnProcess (env : Env) (index : Nat) (active : List ActiveProc)
    (completed : List CompletedOutput) : List ActiveProc × List CompletedOutput :=
  if env.spawnOk index then (active ++ [⟨index, 0⟩], completed)
  else (active, completed ++ [⟨index, true⟩])

/-- The spawn loop
`while next_to_spawn < repos.len() && active.len() < max_conn { spawn_process(…); next_to_spawn += 1 }`
(both the initial burst and the refill step of the main loop). -/
def spawnLoop (env : Env) (N maxConn nextToSpawn : Nat) (active : List ActiveProc)
    (completed : List CompletedOutput) : Nat × List ActiveProc × List CompletedOutput :=
  if nextToSpawn < N ∧ active.length < maxConn then
    let (a, c) := spawnProcess env nextToSpawn active completed
    spawnLoop env N maxConn (nextToSpawn + 1) a c
  else (nextToSpawn, active, completed)
termination_by N - nextToSpawn
decreasing_by omega

/-- The print loop
`while let Some(pos) = completed.iter().position(|c| c.index == next_to_print)`:
`swap_remove` the entry for the next index, emit it, advance. `emitted` is the
list of outcomes printed so far, in print order.  (`getD` reads the entry that
`swap_remove` returns; `position` guarantees `pos` is in bounds, so the
default is never used.) -/
def printLoop (completed emitted : List CompletedOutput) (nextToPrint : Nat) :
    List CompletedOutput × List CompletedOutput × Nat :=
  match hp : position completed nextToPrint with
  | some pos =>
      printLoop (swapRemove completed pos)
        (emitted ++ [completed.getD pos ⟨0, false⟩]) (nextToPrint + 1)
  | none => (completed, emitted, nextToPrint)
termination_by completed.length
decreasing_by
  have hlt := position_lt hp
  have hne : completed ≠ [] := by
    intro hn
    rw [hn] at hlt
    simp at hlt
  rw [swapRemove_length hne]
  omega

/-- State of `run_parallel_limited` between loop iterations. -/
structure SchedState where
  nextToSpawn : Nat
  nextToPrint : Nat
  active : List ActiveProc
  completed : List CompletedOutput
  emitted : List CompletedOutput
deriving DecidableEq

/-- One iteration of the main loop: poll the active set, refill free slots
from the pending queue, then print every completed outcome that is next in
order. -/
def loopIter (env : Env) (N maxConn : Nat) (s : SchedState) : SchedState :=
  let (a1, c1) := pollLoop env 0 s.active s.completed
  let (ns, a2, c2) := spawnLoop env N maxConn s.nextToSpawn a1 c1
  let (c3, em, np) := printLoop c2 s.emitted s.nextToPrint
  ⟨ns, np, a2, c3, em⟩

/-- The main loop `while !active.is_empty() || next_to_print < repos.len()`,
with the in-body exit `if next_to_print >= repos.len() { break }`, run on
`fuel` iterations (`none` when the fuel runs out first). -/
def runLoop (env : Env) (N maxConn : Nat) : Nat → SchedState → Option SchedState
  | 0, _ => none
  | fuel + 1, s =>
    if s.active = [] ∧ N ≤ s.nextToPrint then some s
    else if N ≤ (loopIter env N maxConn s).nextToPrint then some (loopIter env N maxConn s)
    else runLoop env N maxConn fuel (loopIter env N maxConn s)

/-- The state after the initial burst (spawn up to `max_conn` targets),
with nothing printed yet. -/
def initSched (env : Env) (N maxConn : Nat) : SchedState :=
  let (ns, a, c) := spawnLoop env N maxConn 0 [] []
  ⟨ns, 0, a, c, []⟩

/-- `run_parallel_limited`: initial burst, then the main loop. -/
def runParallelLimited (env : Env) (N maxConn fuel : Nat) : Option SchedState :=
  runLoop env N maxConn fuel (initSched env N maxConn)

/-- The scheduler's execution unrolled: state after the initial burst and
after each of `n` main-loop iterations. -/
def iterSched (env : Env) (N maxConn : Nat) : Nat → SchedState
  | 0 => initSched env N maxConn
  | n + 1 => loopIter env N maxConn (iterSched env N maxConn n)

/-! ## The unlimited strategy (`run_parallel_unlimited`) -/

/-- Outcome of one target in the unlimited strategy: `Err` iff its spawn
failed or collecting its output failed. -/
def unlimitedOutcome (env : Env) (i : Nat) : CompletedOutput :=
  ⟨i, !env.spawnOk i || env.pollErr i⟩

/-- Phase 1 of `run_parallel_unlimited`: spawn every target immediately,
in discovery order, without waiting for anything. -/
def unlimitedSpawnEffects (N : Nat) : List Effect :=
  (List.range N).map .spawnTarget

/-- Phase 2 of `run_parallel_unlimited`: wait for each process and print the
results in discovery order. -/
def runParallelUnlimited (env : Env) (N : Nat) : List CompletedOutput :=
  (List.range N).map (unlimitedOutcome env)

/-! ## The thread-per-target implementation (`src/nit-rust/src/runner.rs`) -/

/-- The ordered-emission step of the nit runner:
`sorted.sort_by_key(|(idx, _, _)| *idx)` applied to the collected
per-thread results `(index, outcome)`.  Rust's `sort_by_key` is a stable
sort; it is modelled by a stable insertion sort, which agrees with it on
every input (and the keys here are distinct anyway). -/
def sortByIdx (results : List (Nat × Bool)) : List (Nat × Bool) :=
  List.insertionSort (fun a b => a.1 ≤ b.1) results

/-- The index sequence in which the nit runner prints: collected results in
any arrival order, sorted by original index. -/
def nitEmittedIndices (results : List (Nat × Bool)) : List Nat :=
  (sortByIdx results).map Prod.fst

/-! ## The counting semaphore (`struct Semaphore`, nit runner) -/

/-- Shared semaphore state: free permits, and the number of threads currently
between `acquire` and `release` (each such thread is running one process). -/
structure SemState where
  permits : Nat
  running : Nat
deriving DecidableEq

/-- Transitions of `Semaphore`: `acquire` waits while `count == 0` then
decrements (so it fires only from a state with a free permit), and `release`
increments; in `run_with_semaphore` only a thread that holds a permit
releases. -/
inductive SemStep : SemState → SemState → Prop
  | acquire (p r : Nat) : SemStep ⟨p + 1, r⟩ ⟨p, r + 1⟩
  | release (p r : Nat) : SemStep ⟨p, r + 1⟩ ⟨p + 1, r⟩

/-- States reachable from the initial `Semaphore::new(cap)` state. -/
def SemReachable (cap : Nat) (s : SemState) : Prop :=
  Relation.ReflTransGen SemStep ⟨cap, 0⟩ s

/-! ## List lemmas for `swap_remove` and `position` -/

theorem setGetSelf {α : Type} :
    ∀ (l : List α) (i : Nat) (h : i < l.length), l.set i (l.get ⟨i, h⟩) = l
  | [], i, h => by simp at h
  | _ :: _, 0, _ => rfl
  | a :: t, i + 1, h => by
    simp only [List.set, List.get]
    rw [setGetSelf t i (by simpa using h)]

/-- Removing position `i` by `swap_remove` only reorders: putting the removed
element back in front is a permutation of the original list. -/
theorem swapRemove_cons_perm {α : Type} :
    ∀ (l : List α) (i : Nat) (h : i < l.length),
      (l.get ⟨i, h⟩ :: swapRemove l i).Perm l
  | [], _, h => by simp at h
  | [a], 0, _ => by
    simp [swapRemove, List.getLast?]
  | [a], i + 1, h => by
    simp at h
  | a :: b :: t, 0, _ => by
    have hbt : (b :: t) ≠ [] := by simp
    unfold swapRemove
    rw [List.getLast?_cons_cons]
    have hlast : (b :: t).getLast? = some ((b :: t).getLast hbt) :=
      List.getLast?_eq_getLast (b :: t) hbt
    rw [hlast]
    simp only [List.set, List.dropLast]
    refine List.Perm.cons _ ?_
    have hdec : (b :: t).dropLast ++ [(b :: t).getLast hbt] = b :: t :=
      List.dropLast_append_getLast hbt
    have h1 : ((b :: t).getLast hbt :: (b :: t).dropLast).Perm
        ((b :: t).dropLast ++ [(b :: t).getLast hbt]) :=
      (List.perm_append_singleton _ _).symm
    rw [hdec] at h1
    exact h1
  | a :: b :: t, i + 1, h => by
    have hbt : (b :: t) ≠ [] := by simp
    have hi : i < (b :: t).length := by simpa using h
    have hlast : (b :: t).getLast? = some ((b :: t).getLast hbt) :=
      List.getLast?_eq_getLast (b :: t) hbt
    have hswap : swapRemove (a :: b :: t) (i + 1) = a :: swapRemove (b :: t) i := by
      unfold swapRemove
      rw [List.getLast?_cons_cons, hlast]
      simp only [List.set]
      have hne : (b :: t).set i ((b :: t).getLast hbt) ≠ [] := by
        intro hc
        have := congrArg List.length hc
        simp at this
      rw [List.dropLast_cons_of_ne_nil hne]
    rw [hswap]
    have hget : (a :: b :: t).get ⟨i + 1, h⟩ = (b :: t).get ⟨i, hi⟩ := rfl
    rw [hget]
    have h2 := swapRemove_cons_perm (b :: t) i hi
    have h3 : ((b :: t).get ⟨i, hi⟩ :: a :: swapRemove (b :: t) i).Perm
        (a :: (b :: t).get ⟨i, hi⟩ :: swapRemove (b :: t) i) := List.Perm.swap a _ _
    exact h3.trans (List.Perm.cons a h2)

theorem mem_of_mem_swapRemove {α : Type} {l : List α} {i : Nat} (h : i < l.length)
    {x : α} (hx : x ∈ swapRemove l i) : x ∈ l :=
  (swapRemove_cons_perm l i h).mem_iff.mp (List.mem_cons_of_mem _ hx)

theorem position_none {l : List CompletedOutput} {k : Nat}
    (h : position l k = none) : ∀ e ∈ l, e.index ≠ k := by
  induction l with
  | nil => simp
  | cons c rest ih =>
    intro e he
    by_cases hc : c.index = k
    · rw [position, if_pos hc] at h
      simp at h
    · rw [position, if_neg hc] at h
      rcases List.mem_cons.mp he with he | he
      · subst he; exact hc
      · exact ih (by
          rcases hr : position rest k with _ | q
          · rfl
          · rw [hr] at h; simp at h) e he

theorem position_get {l : List CompletedOutput} {k p : Nat}
    (h : position l k = some p) : (l.get ⟨p, position_lt h⟩).index = k := by
  induction l generalizing p with
  | nil => simp [position] at h
  | cons c rest ih =>
    by_cases hc : c.index = k
    · rw [position, if_pos hc] at h
      cases h
      exact hc
    · rw [position, if_neg hc, Option.map_eq_some'] at h
      obtain ⟨q, hq, hpq⟩ := h
      subst hpq
      exact ih hq

theorem position_isSome_of_mem {l : List CompletedOutput} {k : Nat}
    (h : ∃ e ∈ l, e.index = k) : ∃ p, position l k = some p := by
  induction l with
  | nil => simp at h
  | cons c rest ih =>
    by_cases hc : c.index = k
    · exact ⟨0, by rw [position, if_pos hc]⟩
    · obtain ⟨e, he, hek⟩ := h
      rcases List.mem_cons.mp he with he | he
      · subst he; exact absurd hek hc
      · obtain ⟨p, hp⟩ := ih ⟨e, he, hek⟩
        exact ⟨p + 1, by rw [position, if_neg hc, hp]; rfl⟩

/-! ## Poll-pass lemmas -/

theorem pollOne_running_lt {env : Env} {p : ActiveProc}
    (h : pollOne env p = .running) : p.age < env.dur p.index := by
  by_cases hd : p.age < env.dur p.index
  · exact hd
  · rw [pollOne, if_neg hd] at h
    cases h

theorem pollOne_finished_inv {env : Env} {p : ActiveProc} {e : Bool}
    (h : pollOne env p = .finished e) :
    env.dur p.index ≤ p.age ∧ e = env.pollErr p.index := by
  by_cases hd : p.age < env.dur p.index
  · rw [pollOne, if_pos hd] at h
    cases h
  · rw [pollOne, if_neg hd] at h
    cases h
    exact ⟨Nat.le_of_not_lt hd, rfl⟩

theorem map_index_set (active : List ActiveProc) (i : Nat) (h : i < active.length)
    (q : Nat) : (active.set i ⟨(active.get ⟨i, h⟩).index, q⟩).map ActiveProc.index
      = active.map ActiveProc.index := by
  rw [List.map_set]
  have hg : ActiveProc.index (active.get ⟨i, h⟩)
      = (active.map ActiveProc.index).get ⟨i, by simpa using h⟩ := by
    simp
  rw [hg, setGetSelf]

theorem map_sum_decomp {α : Type} (f : α → Nat) (l : List α) (i : Nat) (h : i < l.length) :
    (l.map f).sum
      = ((l.take i).map f).sum + (f (l.get ⟨i, h⟩) + ((l.drop (i + 1)).map f).sum) := by
  conv_lhs => rw [← List.take_append_drop i l, List.drop_eq_get_cons h]
  rw [List.map_append, List.sum_append, List.map_cons, List.sum_cons]

/-- Remaining poll passes the active set can absorb: each process still has
`dur - age + 1` polls ahead of it (the last one reaps it). -/
def weight (env : Env) (l : List ActiveProc) : Nat :=
  (l.map fun p => env.dur p.index + 1 - p.age).sum

theorem pollLoop_counts (env : Env) (i : Nat) (a : List ActiveProc)
    (c : List CompletedOutput) (k : Nat) :
    ((pollLoop env i a c).1.map ActiveProc.index).count k
      + ((pollLoop env i a c).2.map CompletedOutput.index).count k
    = (a.map ActiveProc.index).count k + (c.map CompletedOutput.index).count k := by
  induction i, a, c using pollLoop.induct env with
  | case1 i active completed h p hpoll ih =>
    simp only [show p = active.get ⟨i, h⟩ from rfl] at hpoll ih
    rw [pollLoop, dif_pos h]
    simp only [hpoll]
    rw [map_index_set active i h] at ih
    exact ih
  | case2 i active completed h p e hpoll ih =>
    simp only [show p = active.get ⟨i, h⟩ from rfl] at hpoll ih
    rw [pollLoop, dif_pos h]
    simp only [hpoll]
    have hperm := (swapRemove_cons_perm active i h).map ActiveProc.index
    have hcnt : ((active.get ⟨i, h⟩).index :: (swapRemove active i).map ActiveProc.index).count k
        = (active.map ActiveProc.index).count k := hperm.count_eq k
    rw [List.count_cons] at hcnt
    rw [List.map_append, List.count_append] at ih
    simp only [List.map_cons, List.map_nil, List.count_cons, List.count_nil] at ih
    omega
  | case3 i active completed h =>
    rw [pollLoop, dif_neg h]

theorem pollLoop_active_inv (env : Env) (i : Nat) (a : List ActiveProc)
    (c : List CompletedOutput)
    (ha : ∀ p ∈ a, p.age ≤ env.dur p.index ∧ env.spawnOk p.index = true) :
    ∀ q ∈ (pollLoop env i a c).1, q.age ≤ env.dur q.index ∧ env.spawnOk q.index = true := by
  induction i, a, c using pollLoop.induct env with
  | case1 i active completed h p hpoll ih =>
    simp only [show p = active.get ⟨i, h⟩ from rfl] at hpoll ih
    rw [pollLoop, dif_pos h]
    simp only [hpoll]
    refine ih ?_
    intro q hq
    rcases List.mem_or_eq_of_mem_set hq with hq | hq
    · exact ha q hq
    · subst hq
      have hlt := pollOne_running_lt hpoll
      have hmem := List.get_mem active i h
      exact ⟨hlt, (ha _ hmem).2⟩
  | case2 i active completed h p e hpoll ih =>
    simp only [show p = active.get ⟨i, h⟩ from rfl] at hpoll ih
    rw [pollLoop, dif_pos h]
    simp only [hpoll]
    refine ih ?_
    intro q hq
    exact ha q (mem_of_mem_swapRemove h hq)
  | case3 i active completed h =>
    rw [pollLoop, dif_neg h]
    exact ha

theorem pollLoop_completed_err (env : Env) (i : Nat) (a : List ActiveProc)
    (c : List CompletedOutput)
    (ha : ∀ p ∈ a, env.spawnOk p.index = true)
    (hc : ∀ e ∈ c, e.isErr = (!env.spawnOk e.index || env.pollErr e.index)) :
    ∀ e ∈ (pollLoop env i a c).2, e.isErr = (!env.spawnOk e.index || env.pollErr e.index) := by
  induction i, a, c using pollLoop.induct env with
  | case1 i active completed h p hpoll ih =>
    simp only [show p = active.get ⟨i, h⟩ from rfl] at hpoll ih
    rw [pollLoop, dif_pos h]
    simp only [hpoll]
    refine ih ?_ hc
    intro q hq
    rcases List.mem_or_eq_of_mem_set hq with hq | hq
    · exact ha q hq
    · subst hq
      exact ha (active.get ⟨i, h⟩) (List.get_mem active i h)
  | case2 i active completed h p e hpoll ih =>
    simp only [show p = active.get ⟨i, h⟩ from rfl] at hpoll ih
    rw [pollLoop, dif_pos h]
    simp only [hpoll]
    refine ih ?_ ?_
    · intro q hq
      exact ha q (mem_of_mem_swapRemove h hq)
    · intro x hx
      rcases List.mem_append.mp hx with hx | hx
      · exact hc x hx
      · rcases List.mem_singleton.mp hx with rfl
        have hok := ha (active.get ⟨i, h⟩) (List.get_mem active i h)
        have hinv := pollOne_finished_inv hpoll
        show e = (!env.spawnOk (active.get ⟨i, h⟩).index
          || env.pollErr (active.get ⟨i, h⟩).index)
        rw [hok, hinv.2]
        simp
  | case3 i active completed h =>
    rw [pollLoop, dif_neg h]
    exact hc

theorem pollLoop_length (env : Env) (i : Nat) (a : List ActiveProc)
    (c : List CompletedOutput) :
    (pollLoop env i a c).1.length ≤ a.length := by
  induction i, a, c using pollLoop.induct env with
  | case1 i active completed h p hpoll ih =>
    simp only [show p = active.get ⟨i, h⟩ from rfl] at hpoll ih
    rw [pollLoop, dif_pos h]
    simp only [hpoll]
    rw [List.length_set] at ih
    exact ih
  | case2 i active completed h p e hpoll ih =>
    simp only [show p = active.get ⟨i, h⟩ from rfl] at hpoll ih
    rw [pollLoop, dif_pos h]
    simp only [hpoll]
    have hne : active ≠ [] := by
      intro hn
      rw [hn] at h
      simp at h
    rw [swapRemove_length hne] at ih
    omega
  | case3 i active completed h =>
    rw [pollLoop, dif_neg h]

theorem pollLoop_weight (env : Env) (i : Nat) (a : List ActiveProc)
    (c : List CompletedOutput) (ha : ∀ p ∈ a, p.age ≤ env.dur p.index) :
    weight env (pollLoop env i a c).1 + (a.length - i) ≤ weight env a := by
  induction i, a, c using pollLoop.induct env with
  | case1 i active completed h p hpoll ih =>
    simp only [show p = active.get ⟨i, h⟩ from rfl] at hpoll ih
    rw [pollLoop, dif_pos h]
    simp only [hpoll]
    have hlt := pollOne_running_lt hpoll
    have hages : ∀ q ∈ active.set i ⟨(active.get ⟨i, h⟩).index,
        (active.get ⟨i, h⟩).age + 1⟩, q.age ≤ env.dur q.index := by
      intro q hq
      rcases List.mem_or_eq_of_mem_set hq with hq | hq
      · exact ha q hq
      · subst hq
        exact hlt
    have ih' := ih hages
    rw [List.length_set] at ih'
    have hWset : weight env (active.set i ⟨(active.get ⟨i, h⟩).index,
        (active.get ⟨i, h⟩).age + 1⟩) + 1 = weight env active := by
      rw [weight, weight, List.set_eq_take_cons_drop _ h,
        map_sum_decomp _ active i h]
      rw [List.map_append, List.sum_append, List.map_cons, List.sum_cons]
      dsimp only
      have hda := hlt
      omega
    omega
  | case2 i active completed h p e hpoll ih =>
    simp only [show p = active.get ⟨i, h⟩ from rfl] at hpoll ih
    rw [pollLoop, dif_pos h]
    simp only [hpoll]
    have hne : active ≠ [] := by
      intro hn
      rw [hn] at h
      simp at h
    have hages : ∀ q ∈ swapRemove active i, q.age ≤ env.dur q.index := by
      intro q hq
      exact ha q (mem_of_mem_swapRemove h hq)
    have ih' := ih hages
    rw [swapRemove_length hne] at ih'
    have hsum : (env.dur (active.get ⟨i, h⟩).index + 1 - (active.get ⟨i, h⟩).age)
        + weight env (swapRemove active i) = weight env active := by
      have hperm := (swapRemove_cons_perm active i h).map
        (fun p => env.dur p.index + 1 - p.age)
      have := hperm.sum_eq
      rw [List.map_cons, List.sum_cons] at this
      exact this
    have hage := ha _ (List.get_mem active i h)
    omega
  | case3 i active completed h =>
    rw [pollLoop, dif_neg h]
    dsimp only
    omega

theorem pollLoop_nil (env : Env) (c : List CompletedOutput) :
    pollLoop env 0 [] c = ([], c) := by
  rw [pollLoop, dif_neg]
  simp

/-! ## Spawn-loop lemmas -/

/-- Fuel the pending queue still represents: starting target `j` costs one
step and its process then absorbs `dur j + 1` poll passes. -/
def spawnWeight (env : Env) (N ns : Nat) : Nat :=
  ((List.range' ns (N - ns)).map fun j => env.dur j + 2).sum

theorem spawnWeight_succ (env : Env) {N ns : Nat} (h : ns < N) :
    spawnWeight env N ns = env.dur ns + 2 + spawnWeight env N (ns + 1) := by
  rw [spawnWeight, spawnWeight, show N - ns = (N - (ns + 1)) + 1 from by omega]
  rw [List.range'_succ, List.map_cons, List.sum_cons]

theorem spawnLoop_mono (env : Env) (N maxConn : Nat) (ns : Nat) (a : List ActiveProc)
    (c : List CompletedOutput) : ns ≤ (spawnLoop env N maxConn ns a c).1 := by
  induction ns, a, c using spawnLoop.induct env N maxConn with
  | case1 ns active completed hcond a c hsp ih =>
    rw [spawnLoop, if_pos hcond, hsp]
    dsimp only
    omega
  | case2 ns active completed hcond =>
    rw [spawnLoop, if_neg hcond]

theorem spawnLoop_le (env : Env) (N maxConn : Nat) (ns : Nat) (a : List ActiveProc)
    (c : List CompletedOutput) (h : ns ≤ N) : (spawnLoop env N maxConn ns a c).1 ≤ N := by
  induction ns, a, c using spawnLoop.induct env N maxConn with
  | case1 ns active completed hcond a c hsp ih =>
    rw [spawnLoop, if_pos hcond, hsp]
    dsimp only
    exact ih (by omega)
  | case2 ns active completed hcond =>
    rw [spawnLoop, if_neg hcond]
    exact h

theorem spawnLoop_counts (env : Env) (N maxConn : Nat) (ns : Nat) (a : List ActiveProc)
    (c : List CompletedOutput) (k : Nat) :
    ((spawnLoop env N maxConn ns a c).2.1.map ActiveProc.index).count k
        + ((spawnLoop env N maxConn ns a c).2.2.map CompletedOutput.index).count k
        + (if k < ns then 1 else 0)
      = (a.map ActiveProc.index).count k + (c.map CompletedOutput.index).count k
        + (if k < (spawnLoop env N maxConn ns a c).1 then 1 else 0) := by
  induction ns, a, c using spawnLoop.induct env N maxConn with
  | case1 ns active completed hcond a c hsp ih =>
    have hmono := spawnLoop_mono env N maxConn (ns + 1) a c
    rw [spawnLoop, if_pos hcond, hsp]
    dsimp only
    by_cases hok : env.spawnOk ns
    · rw [spawnProcess, if_pos hok] at hsp
      cases hsp
      rw [List.map_append, List.count_append] at ih
      simp only [List.map_cons, List.map_nil, List.count_cons, List.count_nil,
        beq_iff_eq] at ih
      split_ifs at ih ⊢ <;> omega
    · rw [spawnProcess, if_neg hok] at hsp
      cases hsp
      rw [List.map_append, List.count_append] at ih
      simp only [List.map_cons, List.map_nil, List.count_cons, List.count_nil,
        beq_iff_eq] at ih
      split_ifs at ih ⊢ <;> omega
  | case2 ns active completed hcond =>
    rw [spawnLoop, if_neg hcond]

theorem spawnLoop_active_inv (env : Env) (N maxConn : Nat) (ns : Nat)
    (a : List ActiveProc) (c : List CompletedOutput)
    (ha : ∀ p ∈ a, p.age ≤ env.dur p.index ∧ env.spawnOk p.index = true) :
    ∀ q ∈ (spawnLoop env N maxConn ns a c).2.1,
      q.age ≤ env.dur q.index ∧ env.spawnOk q.index = true := by
  induction ns, a, c using spawnLoop.induct env N maxConn with
  | case1 ns active completed hcond a c hsp ih =>
    rw [spawnLoop, if_pos hcond, hsp]
    dsimp only
    by_cases hok : env.spawnOk ns
    · rw [spawnProcess, if_pos hok] at hsp
      cases hsp
      refine ih ?_
      intro q hq
      rcases List.mem_append.mp hq with hq | hq
      · exact ha q hq
      · rcases List.mem_singleton.mp hq with rfl
        exact ⟨Nat.zero_le _, hok⟩
    · rw [spawnProcess, if_neg hok] at hsp
      cases hsp
      exact ih ha
  | case2 ns active completed hcond =>
    rw [spawnLoop, if_neg hcond]
    exact ha

theorem spawnLoop_completed_err (env : Env) (N maxConn : Nat) (ns : Nat)
    (a : List ActiveProc) (c : List CompletedOutput)
    (hc : ∀ e ∈ c, e.isErr = (!env.spawnOk e.index || env.pollErr e.index)) :
    ∀ e ∈ (spawnLoop env N maxConn ns a c).2.2,
      e.isErr = (!env.spawnOk e.index || env.pollErr e.index) := by
  induction ns, a, c using spawnLoop.induct env N maxConn with
  | case1 ns active completed hcond a c hsp ih =>
    rw [spawnLoop, if_pos hcond, hsp]
    dsimp only
    by_cases hok : env.spawnOk ns
    · rw [spawnProcess, if_pos hok] at hsp
      cases hsp
      exact ih hc
    · rw [spawnProcess, if_neg hok] at hsp
      cases hsp
      refine ih ?_
      intro x hx
      rcases List.mem_append.mp hx with hx | hx
      · exact hc x hx
      · rcases List.mem_singleton.mp hx with rfl
        show true = (!env.spawnOk ns || env.pollErr ns)
        rw [Bool.eq_false_iff.mpr hok]
        rfl
  | case2 ns active completed hcond =>
    rw [spawnLoop, if_neg hcond]
    exact hc

theorem spawnLoop_cap (env : Env) (N maxConn : Nat) (ns : Nat) (a : List ActiveProc)
    (c : List CompletedOutput) (h : a.length ≤ maxConn) :
    (spawnLoop env N maxConn ns a c).2.1.length ≤ maxConn := by
  induction ns, a, c using spawnLoop.induct env N maxConn with
  | case1 ns active completed hcond a c hsp ih =>
    rw [spawnLoop, if_pos hcond, hsp]
    dsimp only
    by_cases hok : env.spawnOk ns
    · rw [spawnProcess, if_pos hok] at hsp
      cases hsp
      refine ih ?_
      rw [List.length_append]
      simp only [List.length_cons, List.length_nil]
      omega
    · rw [spawnProcess, if_neg hok] at hsp
      cases hsp
      exact ih h
  | case2 ns active completed hcond =>
    rw [spawnLoop, if_neg hcond]
    exact h

theorem spawnLoop_weight (env : Env) (N maxConn : Nat) (ns : Nat) (a : List ActiveProc)
    (c : List CompletedOutput) :
    spawnWeight env N (spawnLoop env N maxConn ns a c).1
        + weight env (spawnLoop env N maxConn ns a c).2.1
        + ((spawnLoop env N maxConn ns a c).1 - ns)
      ≤ spawnWeight env N ns + weight env a := by
  induction ns, a, c using spawnLoop.induct env N maxConn with
  | case1 ns active completed hcond a c hsp ih =>
    have hmono := spawnLoop_mono env N maxConn (ns + 1) a c
    rw [spawnLoop, if_pos hcond, hsp]
    dsimp only
    have hsw := spawnWeight_succ env hcond.1
    by_cases hok : env.spawnOk ns
    · rw [spawnProcess, if_pos hok] at hsp
      cases hsp
      have hwa : weight env (active ++ [⟨ns, 0⟩]) = weight env active + (env.dur ns + 1) := by
        rw [weight, weight, List.map_append, List.sum_append]
        simp only [List.map_cons, List.map_nil, List.sum_cons, List.sum_nil]
        omega
      rw [hwa] at ih
      omega
    · rw [spawnProcess, if_neg hok] at hsp
      cases hsp
      omega
  | case2 ns active completed hcond =>
    rw [spawnLoop, if_neg hcond]
    dsimp only
    omega

theorem spawnLoop_progress (env : Env) (N maxConn : Nat) (ns : Nat) (a : List ActiveProc)
    (c : List CompletedOutput) (h1 : ns < N) (h2 : a.length < maxConn) :
    ns + 1 ≤ (spawnLoop env N maxConn ns a c).1 := by
  rw [spawnLoop, if_pos ⟨h1, h2⟩]
  rcases hsp : spawnProcess env ns a c with ⟨a1, c1⟩
  exact spawnLoop_mono env N maxConn (ns + 1) a1 c1

/-! ## Print-loop lemmas -/

theorem position_getD {l : List CompletedOutput} {k p : Nat}
    (h : position l k = some p) : (l.getD p ⟨0, false⟩).index = k := by
  induction l generalizing p with
  | nil => simp [position] at h
  | cons c rest ih =>
    by_cases hc : c.index = k
    · rw [position, if_pos hc] at h
      cases h
      exact hc
    · rw [position, if_neg hc, Option.map_eq_some'] at h
      obtain ⟨q, hq, hpq⟩ := h
      subst hpq
      exact ih hq

theorem getD_eq_get_of_lt {l : List CompletedOutput} {p : Nat} (h : p < l.length) :
    l.getD p ⟨0, false⟩ = l.get ⟨p, h⟩ := by
  rw [List.getD_eq_getElem l _ h]
  rfl

theorem printLoop_mono (c em : List CompletedOutput) (ntp : Nat) :
    ntp ≤ (printLoop c em ntp).2.2 := by
  induction c, em, ntp using printLoop.induct with
  | case1 c em ntp pos hp ih =>
    rw [printLoop, hp]
    dsimp only
    omega
  | case2 c em ntp hp =>
    rw [printLoop, hp]

theorem printLoop_completed_sub (c em : List CompletedOutput) (ntp : Nat) :
    ∀ e ∈ (printLoop c em ntp).1, e ∈ c := by
  induction c, em, ntp using printLoop.induct with
  | case1 c em ntp pos hp ih =>
    rw [printLoop, hp]
    intro e he
    exact mem_of_mem_swapRemove (position_lt hp) (ih e he)
  | case2 c em ntp hp =>
    rw [printLoop, hp]
    intro e he
    exact he

theorem printLoop_emitted_mem (c em : List CompletedOutput) (ntp : Nat) :
    ∀ e ∈ (printLoop c em ntp).2.1, e ∈ em ∨ e ∈ c := by
  induction c, em, ntp using printLoop.induct with
  | case1 c em ntp pos hp ih =>
    rw [printLoop, hp]
    intro e he
    rcases ih e he with hin | hin
    · rcases List.mem_append.mp hin with hin | hin
      · exact Or.inl hin
      · rcases List.mem_singleton.mp hin with rfl
        refine Or.inr ?_
        rw [getD_eq_get_of_lt (position_lt hp)]
        exact List.get_mem c pos (position_lt hp)
    · exact Or.inr (mem_of_mem_swapRemove (position_lt hp) hin)
  | case2 c em ntp hp =>
    rw [printLoop, hp]
    intro e he
    exact Or.inl he

theorem printLoop_emitted_idx (c em : List CompletedOutput) (ntp : Nat) :
    (printLoop c em ntp).2.1.map CompletedOutput.index
      = em.map CompletedOutput.index
        ++ List.range' ntp ((printLoop c em ntp).2.2 - ntp) := by
  induction c, em, ntp using printLoop.induct with
  | case1 c em ntp pos hp ih =>
    have hmono := printLoop_mono (swapRemove c pos)
      (em ++ [c.getD pos ⟨0, false⟩]) (ntp + 1)
    rw [printLoop, hp]
    rw [ih, List.map_append]
    simp only [List.map_cons, List.map_nil]
    rw [position_getD hp]
    have harith : (printLoop (swapRemove c pos) (em ++ [c.getD pos ⟨0, false⟩])
        (ntp + 1)).2.2 - ntp
      = ((printLoop (swapRemove c pos) (em ++ [c.getD pos ⟨0, false⟩])
        (ntp + 1)).2.2 - (ntp + 1)) + 1 := by omega
    rw [harith, List.range'_succ, List.append_assoc]
    rfl
  | case2 c em ntp hp =>
    rw [printLoop, hp]
    simp

theorem printLoop_counts (c em : List CompletedOutput) (ntp : Nat) (k : Nat) :
    (c.map CompletedOutput.index).count k + (if k < ntp then 1 else 0)
      = ((printLoop c em ntp).1.map CompletedOutput.index).count k
        + (if k < (printLoop c em ntp).2.2 then 1 else 0) := by
  induction c, em, ntp using printLoop.induct with
  | case1 c em ntp pos hp ih =>
    have hmono := printLoop_mono (swapRemove c pos)
      (em ++ [c.getD pos ⟨0, false⟩]) (ntp + 1)
    rw [printLoop, hp]
    have hperm := (swapRemove_cons_perm c pos (position_lt hp)).map CompletedOutput.index
    have hcnt : ((c.get ⟨pos, position_lt hp⟩).index
        :: (swapRemove c pos).map CompletedOutput.index).count k
        = (c.map CompletedOutput.index).count k := hperm.count_eq k
    have hidx : (c.get ⟨pos, position_lt hp⟩).index = ntp := by
      rw [← getD_eq_get_of_lt (position_lt hp)]
      exact position_getD hp
    rw [hidx, List.count_cons] at hcnt
    simp only [beq_iff_eq] at hcnt
    dsimp only
    split_ifs at hcnt ih ⊢ <;> omega
  | case2 c em ntp hp =>
    rw [printLoop, hp]

theorem printLoop_final_none (c em : List CompletedOutput) (ntp : Nat) :
    position (printLoop c em ntp).1 (printLoop c em ntp).2.2 = none := by
  induction c, em, ntp using printLoop.induct with
  | case1 c em ntp pos hp ih =>
    rw [printLoop, hp]
    exact ih
  | case2 c em ntp hp =>
    rw [printLoop, hp]
    exact hp

theorem printLoop_progress {c : List CompletedOutput} {ntp pos : Nat}
    (em : List CompletedOutput) (hp : position c ntp = some pos) :
    ntp + 1 ≤ (printLoop c em ntp).2.2 := by
  rw [printLoop, hp]
  exact printLoop_mono _ _ _

/-! ## The scheduler invariant and its preservation -/

/-- The inductive invariant of `run_parallel_limited` between iterations:
emitted outcomes are exactly indices `0 .. next_to_print - 1` in order; every
index in `[next_to_print, next_to_spawn)` is in flight or buffered exactly
once; active processes were spawned successfully and are within their
duration; buffered and emitted outcomes carry the right error flag; the
active set respects the cap. -/
structure Inv (env : Env) (N maxConn : Nat) (s : SchedState) : Prop where
  emitted_idx : s.emitted.map CompletedOutput.index = List.range s.nextToPrint
  print_le_spawn : s.nextToPrint ≤ s.nextToSpawn
  spawn_le : s.nextToSpawn ≤ N
  counts : ∀ k, (s.active.map ActiveProc.index).count k
      + (s.completed.map CompletedOutput.index).count k
      + (if k < s.nextToPrint then 1 else 0)
    = if k < s.nextToSpawn then 1 else 0
  active_inv : ∀ p ∈ s.active, p.age ≤ env.dur p.index ∧ env.spawnOk p.index = true
  completed_err : ∀ e ∈ s.completed,
    e.isErr = (!env.spawnOk e.index || env.pollErr e.index)
  emitted_err : ∀ e ∈ s.emitted,
    e.isErr = (!env.spawnOk e.index || env.pollErr e.index)
  active_cap : s.active.length ≤ maxConn

theorem loopIter_eq (env : Env) (N maxConn : Nat) (s : SchedState)
    {a1 a2 : List ActiveProc} {c1 c2 c3 em' : List CompletedOutput} {ns' np' : Nat}
    (hP : pollLoop env 0 s.active s.completed = (a1, c1))
    (hS : spawnLoop env N maxConn s.nextToSpawn a1 c1 = (ns', a2, c2))
    (hPr : printLoop c2 s.emitted s.nextToPrint = (c3, em', np')) :
    loopIter env N maxConn s = ⟨ns', np', a2, c3, em'⟩ := by
  rw [loopIter, hP]
  dsimp only
  rw [hS]
  dsimp only
  rw [hPr]

theorem initSched_inv (env : Env) (N maxConn : Nat) :
    Inv env N maxConn (initSched env N maxConn) := by
  rcases hS : spawnLoop env N maxConn 0 [] [] with ⟨ns0, a0, c0⟩
  have hstate : initSched env N maxConn = ⟨ns0, 0, a0, c0, []⟩ := by
    rw [initSched, hS]
  rw [hstate]
  refine ⟨by simp, Nat.zero_le _, ?_, ?_, ?_, ?_, by simp, ?_⟩
  · have := spawnLoop_le env N maxConn 0 [] [] (Nat.zero_le N)
    rw [hS] at this
    exact this
  · intro k
    have := spawnLoop_counts env N maxConn 0 [] [] k
    rw [hS] at this
    simpa using this
  · intro p hp
    have := spawnLoop_active_inv env N maxConn 0 [] [] (by simp)
    rw [hS] at this
    exact this p hp
  · intro e he
    have := spawnLoop_completed_err env N maxConn 0 [] [] (by simp)
    rw [hS] at this
    exact this e he
  · have := spawnLoop_cap env N maxConn 0 [] [] (by simp)
    rw [hS] at this
    exact this

theorem loopIter_inv (env : Env) (N maxConn : Nat) (s : SchedState)
    (hinv : Inv env N maxConn s) : Inv env N maxConn (loopIter env N maxConn s) := by
  rcases hP : pollLoop env 0 s.active s.completed with ⟨a1, c1⟩
  rcases hS : spawnLoop env N maxConn s.nextToSpawn a1 c1 with ⟨ns', a2, c2⟩
  rcases hPr : printLoop c2 s.emitted s.nextToPrint with ⟨c3, em', np'⟩
  rw [loopIter_eq env N maxConn s hP hS hPr]
  have hpc : ∀ k, (a1.map ActiveProc.index).count k
      + (c1.map CompletedOutput.index).count k
      = (s.active.map ActiveProc.index).count k
        + (s.completed.map CompletedOutput.index).count k := by
    intro k
    have := pollLoop_counts env 0 s.active s.completed k
    rw [hP] at this
    exact this
  have hpa : ∀ q ∈ a1, q.age ≤ env.dur q.index ∧ env.spawnOk q.index = true := by
    have := pollLoop_active_inv env 0 s.active s.completed hinv.active_inv
    rw [hP] at this
    exact this
  have hpe : ∀ e ∈ c1, e.isErr = (!env.spawnOk e.index || env.pollErr e.index) := by
    have := pollLoop_completed_err env 0 s.active s.completed
      (fun p hp => (hinv.active_inv p hp).2) hinv.completed_err
    rw [hP] at this
    exact this
  have hplen : a1.length ≤ s.active.length := by
    have := pollLoop_length env 0 s.active s.completed
    rw [hP] at this
    exact this
  have hsmono : s.nextToSpawn ≤ ns' := by
    have := spawnLoop_mono env N maxConn s.nextToSpawn a1 c1
    rw [hS] at this
    exact this
  have hsle : ns' ≤ N := by
    have := spawnLoop_le env N maxConn s.nextToSpawn a1 c1 hinv.spawn_le
    rw [hS] at this
    exact this
  have hsc : ∀ k, (a2.map ActiveProc.index).count k
      + (c2.map CompletedOutput.index).count k
      + (if k < s.nextToSpawn then 1 else 0)
      = (a1.map ActiveProc.index).count k + (c1.map CompletedOutput.index).count k
        + (if k < ns' then 1 else 0) := by
    intro k
    have := spawnLoop_counts env N maxConn s.nextToSpawn a1 c1 k
    rw [hS] at this
    exact this
  have hsa : ∀ q ∈ a2, q.age ≤ env.dur q.index ∧ env.spawnOk q.index = true := by
    have := spawnLoop_active_inv env N maxConn s.nextToSpawn a1 c1 hpa
    rw [hS] at this
    exact this
  have hse : ∀ e ∈ c2, e.isErr = (!env.spawnOk e.index || env.pollErr e.index) := by
    have := spawnLoop_completed_err env N maxConn s.nextToSpawn a1 c1 hpe
    rw [hS] at this
    exact this
  have hscap : a2.length ≤ maxConn := by
    have := spawnLoop_cap env N maxConn s.nextToSpawn a1 c1
      (Nat.le_trans hplen hinv.active_cap)
    rw [hS] at this
    exact this
  have hprmono : s.nextToPrint ≤ np' := by
    have := printLoop_mono c2 s.emitted s.nextToPrint
    rw [hPr] at this
    exact this
  have hpremit : em'.map CompletedOutput.index
      = s.emitted.map CompletedOutput.index
        ++ List.range' s.nextToPrint (np' - s.nextToPrint) := by
    have := printLoop_emitted_idx c2 s.emitted s.nextToPrint
    rw [hPr] at this
    exact this
  have hprc : ∀ k, (c2.map CompletedOutput.index).count k
      + (if k < s.nextToPrint then 1 else 0)
      = (c3.map CompletedOutput.index).count k + (if k < np' then 1 else 0) := by
    intro k
    have := printLoop_counts c2 s.emitted s.nextToPrint k
    rw [hPr] at this
    exact this
  have hprsub : ∀ e ∈ c3, e ∈ c2 := by
    have := printLoop_completed_sub c2 s.emitted s.nextToPrint
    rw [hPr] at this
    exact this
  have hprmem : ∀ e ∈ em', e ∈ s.emitted ∨ e ∈ c2 := by
    have := printLoop_emitted_mem c2 s.emitted s.nextToPrint
    rw [hPr] at this
    exact this
  have hmid : ∀ k, (a2.map ActiveProc.index).count k
      + (c2.map CompletedOutput.index).count k
      + (if k < s.nextToPrint then 1 else 0)
      = if k < ns' then 1 else 0 := by
    intro k
    have h1 := hpc k
    have h2 := hsc k
    have h3 := hinv.counts k
    have h4 := hinv.print_le_spawn
    split_ifs at h2 h3 ⊢ <;> omega
  have hfinal : ∀ k, (a2.map ActiveProc.index).count k
      + (c3.map CompletedOutput.index).count k
      + (if k < np' then 1 else 0)
      = if k < ns' then 1 else 0 := by
    intro k
    have h1 := hmid k
    have h2 := hprc k
    split_ifs at h1 h2 ⊢ <;> omega
  have hple : np' ≤ ns' := by
    have hps := hinv.print_le_spawn
    by_cases heq : np' = s.nextToPrint
    · omega
    · have hlt : s.nextToPrint < np' := by omega
      have := hfinal (np' - 1)
      by_cases hkk : np' - 1 < ns'
      · omega
      · rw [if_neg hkk, if_pos (by omega)] at this
        omega
  refine ⟨?_, hple, hsle, hfinal, hsa, fun e he => hse e (hprsub e he), ?_, hscap⟩
  · rw [hpremit, hinv.emitted_idx, List.range_eq_range', List.range_eq_range']
    have := List.range'_append 0 s.nextToPrint (np' - s.nextToPrint) 1
    simp only [Nat.one_mul, Nat.zero_add] at this
    rw [this, Nat.sub_add_cancel hprmono]
  · intro e he
    rcases hprmem e he with he | he
    · exact hinv.emitted_err e he
    · exact hse e he

/-! ## Termination measure -/

/-- Fuel bound for the main loop: pending targets, remaining poll passes of
the active set, and results still to print. -/
def measureSched (env : Env) (N : Nat) (s : SchedState) : Nat :=
  spawnWeight env N s.nextToSpawn + weight env s.active + (N - s.nextToPrint)

theorem weight_pos (env : Env) {l : List ActiveProc} (hne : l ≠ [])
    (ha : ∀ p ∈ l, p.age ≤ env.dur p.index) : 1 ≤ weight env l := by
  cases l with
  | nil => exact absurd rfl hne
  | cons p t =>
    rw [weight, List.map_cons, List.sum_cons]
    have := ha p (List.mem_cons_self p t)
    omega

theorem loopIter_measure (env : Env) (N maxConn : Nat) (s : SchedState)
    (hinv : Inv env N maxConn s) (hcap : 1 ≤ maxConn)
    (hguard : s.active ≠ [] ∨ s.nextToPrint < N) :
    measureSched env N (loopIter env N maxConn s) < measureSched env N s := by
  rcases hP : pollLoop env 0 s.active s.completed with ⟨a1, c1⟩
  rcases hS : spawnLoop env N maxConn s.nextToSpawn a1 c1 with ⟨ns', a2, c2⟩
  rcases hPr : printLoop c2 s.emitted s.nextToPrint with ⟨c3, em', np'⟩
  have hinv2 := loopIter_inv env N maxConn s hinv
  rw [loopIter_eq env N maxConn s hP hS hPr] at hinv2 ⊢
  have hw : weight env a1 + s.active.length ≤ weight env s.active := by
    have := pollLoop_weight env 0 s.active s.completed
      (fun p hp => (hinv.active_inv p hp).1)
    rw [hP] at this
    simpa using this
  have hsw : spawnWeight env N ns' + weight env a2 + (ns' - s.nextToSpawn)
      ≤ spawnWeight env N s.nextToSpawn + weight env a1 := by
    have := spawnLoop_weight env N maxConn s.nextToSpawn a1 c1
    rw [hS] at this
    exact this
  have hprmono : s.nextToPrint ≤ np' := by
    have := printLoop_mono c2 s.emitted s.nextToPrint
    rw [hPr] at this
    exact this
  have hnple : np' ≤ N := Nat.le_trans hinv2.print_le_spawn hinv2.spawn_le
  rw [measureSched, measureSched]
  dsimp only
  by_cases hne : s.active = []
  · have hnil := pollLoop_nil env s.completed
    rw [hne] at hP
    rw [hnil] at hP
    rw [Prod.mk.injEq] at hP
    obtain ⟨ha1, hc1⟩ := hP
    subst ha1
    subst hc1
    have hntp : s.nextToPrint < N := by
      rcases hguard with hg | hg
      · exact absurd hne hg
      · exact hg
    by_cases hns : s.nextToSpawn < N
    · have hprog : s.nextToSpawn + 1 ≤ ns' := by
        have := spawnLoop_progress env N maxConn s.nextToSpawn [] s.completed hns
          (by simpa using hcap)
        rw [hS] at this
        exact this
      have hwnil : weight env ([] : List ActiveProc) = 0 := rfl
      rw [hne]
      omega
    · have hnseq : s.nextToSpawn = N := by
        have := hinv.spawn_le
        omega
      rw [spawnLoop, if_neg (by omega)] at hS
      rw [Prod.mk.injEq, Prod.mk.injEq] at hS
      obtain ⟨hns', ha2, hc2⟩ := hS
      subst hns'
      subst ha2
      subst hc2
      have hcnt := hinv.counts s.nextToPrint
      rw [hne] at hcnt
      simp only [List.map_nil, List.count_nil] at hcnt
      have hmem : ∃ e ∈ s.completed, e.index = s.nextToPrint := by
        have hpos : 0 < (s.completed.map CompletedOutput.index).count s.nextToPrint := by
          have h1 : ¬ s.nextToPrint < s.nextToPrint := lt_irrefl _
          have h2 : s.nextToPrint < s.nextToSpawn := by omega
          rw [if_neg h1, if_pos h2] at hcnt
          omega
        have := List.count_pos_iff.mp hpos
        rcases List.mem_map.mp this with ⟨e, he, hei⟩
        exact ⟨e, he, hei⟩
      obtain ⟨pos, hpos⟩ := position_isSome_of_mem hmem
      have hprog : s.nextToPrint + 1 ≤ np' := by
        have := printLoop_progress s.emitted hpos
        rw [hPr] at this
        exact this
      have hwnil : weight env ([] : List ActiveProc) = 0 := rfl
      rw [hne]
      omega
  · have hlen : 1 ≤ s.active.length := by
      cases hl : s.active with
      | nil => exact absurd hl hne
      | cons p t => simp [hl]
    omega

/-! ## Termination and the final state -/

theorem runLoop_some_inv (env : Env) (N maxConn : Nat) :
    ∀ (fuel : Nat) (s final : SchedState), Inv env N maxConn s →
      runLoop env N maxConn fuel s = some final →
      Inv env N maxConn final ∧ final.nextToPrint = N := by
  intro fuel
  induction fuel with
  | zero =>
    intro s final hinv hrun
    rw [runLoop] at hrun
    cases hrun
  | succ fuel ih =>
    intro s final hinv hrun
    rw [runLoop] at hrun
    by_cases hg : s.active = [] ∧ N ≤ s.nextToPrint
    · rw [if_pos hg] at hrun
      cases hrun
      exact ⟨hinv, Nat.le_antisymm (Nat.le_trans hinv.print_le_spawn hinv.spawn_le) hg.2⟩
    · rw [if_neg hg] at hrun
      have hinv2 := loopIter_inv env N maxConn s hinv
      by_cases hb : N ≤ (loopIter env N maxConn s).nextToPrint
      · rw [if_pos hb] at hrun
        cases hrun
        exact ⟨hinv2, Nat.le_antisymm
          (Nat.le_trans hinv2.print_le_spawn hinv2.spawn_le) hb⟩
      · rw [if_neg hb] at hrun
        exact ih _ final hinv2 hrun

theorem runLoop_terminates (env : Env) (N maxConn : Nat) (hcap : 1 ≤ maxConn) :
    ∀ (m : Nat) (s : SchedState), Inv env N maxConn s → measureSched env N s ≤ m →
      ∃ final, runLoop env N maxConn (m + 1) s = some final := by
  intro m
  induction m with
  | zero =>
    intro s hinv hm
    rw [measureSched] at hm
    have hae : s.active = [] := by
      by_contra hne
      have := weight_pos env hne (fun p hp => (hinv.active_inv p hp).1)
      omega
    have hnp : N ≤ s.nextToPrint := by omega
    exact ⟨s, by rw [runLoop, if_pos ⟨hae, hnp⟩]⟩
  | succ m ih =>
    intro s hinv hm
    by_cases hg : s.active = [] ∧ N ≤ s.nextToPrint
    · exact ⟨s, by rw [runLoop, if_pos hg]⟩
    · have hguard : s.active ≠ [] ∨ s.nextToPrint < N := by
        by_cases ha : s.active = []
        · refine Or.inr ?_
          have hn : ¬ N ≤ s.nextToPrint := fun h => hg ⟨ha, h⟩
          omega
        · exact Or.inl ha
      have hinv2 := loopIter_inv env N maxConn s hinv
      have hdec := loopIter_measure env N maxConn s hinv hcap hguard
      by_cases hb : N ≤ (loopIter env N maxConn s).nextToPrint
      · exact ⟨loopIter env N maxConn s, by rw [runLoop, if_neg hg, if_pos hb]⟩
      · obtain ⟨final, hf⟩ := ih (loopIter env N maxConn s) hinv2 (by omega)
        exact ⟨final, by rw [runLoop, if_neg hg, if_neg hb]; exact hf⟩

theorem runParallelLimited_emits {env : Env} {N maxConn fuel : Nat} {final : SchedState}
    (hrun : runParallelLimited env N maxConn fuel = some final) :
    final.emitted.map CompletedOutput.index = List.range N ∧ Inv env N maxConn final := by
  have h := runLoop_some_inv env N maxConn fuel (initSched env N maxConn) final
    (initSched_inv env N maxConn) hrun
  refine ⟨?_, h.1⟩
  rw [h.1.emitted_idx, h.2]

theorem runParallelLimited_exists (env : Env) (N maxConn : Nat) (hcap : 1 ≤ maxConn) :
    ∃ fuel final, runParallelLimited env N maxConn fuel = some final := by
  obtain ⟨final, hf⟩ := runLoop_terminates env N maxConn hcap
    (measureSched env N (initSched env N maxConn)) (initSched env N maxConn)
    (initSched_inv env N maxConn) (Nat.le_refl _)
  exact ⟨measureSched env N (initSched env N maxConn) + 1, final, hf⟩

/-! ## The unrolled execution and the concurrency bound -/

theorem iterSched_inv (env : Env) (N maxConn : Nat) :
    ∀ n, Inv env N maxConn (iterSched env N maxConn n)
  | 0 => initSched_inv env N maxConn
  | n + 1 => loopIter_inv env N maxConn _ (iterSched_inv env N maxConn n)

/-! ## Semaphore invariant -/

theorem semReachable_sum (cap : Nat) (s : SemState) (h : SemReachable cap s) :
    s.permits + s.running = cap := by
  induction h with
  | refl => rfl
  | tail hab hbc ih =>
    cases hbc with
    | acquire p r => simp at ih ⊢; omega
    | release p r => simp at ih ⊢; omega

/-! ## Ordered emission of the thread-per-target runner -/

instance : IsTotal (Nat × Bool) (fun a b => a.1 ≤ b.1) :=
  ⟨fun a b => Nat.le_total a.1 b.1⟩

instance : IsTrans (Nat × Bool) (fun a b => a.1 ≤ b.1) :=
  ⟨fun _ _ _ h1 h2 => le_trans h1 h2⟩

theorem nitEmitted_eq_range {results : List (Nat × Bool)} {N : Nat}
    (h : (results.map Prod.fst).Perm (List.range N)) :
    nitEmittedIndices results = List.range N := by
  have hperm : (sortByIdx results).Perm results := List.perm_insertionSort _ _
  have hmapperm : (nitEmittedIndices results).Perm (List.range N) :=
    (hperm.map Prod.fst).trans h
  have hsorted : List.Sorted (· ≤ ·) (nitEmittedIndices results) := by
    rw [nitEmittedIndices, List.Sorted, List.pairwise_map]
    exact List.sorted_insertionSort _ results
  exact List.eq_of_perm_of_sorted hmapperm hsorted (List.sorted_le_range N)

/-! ## Counting in `range` -/

theorem count_range_eq (k N : Nat) :
    (List.range N).count k = if k < N then 1 else 0 := by
  by_cases h : k < N
  · rw [if_pos h]
    exact List.count_eq_one_of_mem (List.nodup_range N) (List.mem_range.mpr h)
  · rw [if_neg h]
    refine List.count_eq_zero_of_not_mem ?_
    rw [List.mem_range]
    omega

/-! ## Joining argument lists with spaces -/

theorem foldl_append_space (l : List String) (x y : String) :
    l.foldl (fun acc z => acc ++ " " ++ z) (x ++ y)
      = x ++ l.foldl (fun acc z => acc ++ " " ++ z) y := by
  induction l generalizing y with
  | nil => rfl
  | cons z t ih =>
    simp only [List.foldl_cons]
    have h1 : x ++ y ++ " " ++ z = x ++ (y ++ " " ++ z) := by
      simp [String.append_assoc]
    rw [h1, ih]

theorem joinSpace_cons_cons (a b : String) (l : List String) :
    joinSpace (a :: b :: l) = a ++ " " ++ joinSpace (b :: l) := by
  rw [joinSpace, joinSpace]
  simp only [List.foldl_cons]
  exact foldl_append_space l (a ++ " ") b

/-! ## ASCII facts for label formatting -/

theorem charCount_ascii {l : List Nat} (h : ∀ b ∈ l, b < 128) :
    charCount l = l.length := by
  rw [charCount, List.filter_eq_self.mpr]
  intro b hb
  have := h b hb
  rw [isCharBoundaryByte]
  simp
  omega

/-! ## Auxiliary facts for the claims -/

theorem runParallelUnlimited_map (env : Env) (N : Nat) :
    (runParallelUnlimited env N).map CompletedOutput.index = List.range N := by
  rw [runParallelUnlimited, List.map_map]
  have : (CompletedOutput.index ∘ unlimitedOutcome env) = id := by
    funext i
    rfl
  rw [this, List.map_id]

/-- Concrete environment: all spawns succeed, target 0 finishes last. -/
def envC1 : Env := ⟨fun _ => true, fun i => 2 - i, fun _ => false⟩

/-- Concrete environment: target 1 fails to start. -/
def envC7 : Env := ⟨fun i => !(i == 1), fun _ => 1, fun _ => false⟩

/-- Concrete environment: all spawns succeed, target 2 fails at collection. -/
def envC9 : Env := ⟨fun _ => true, fun i => i, fun i => i == 2⟩

/-! ## Claims -/

/-- C1: for every target count, concurrency cap and completion-order
permutation (the environment fixes when every process finishes, and the
collected thread results may arrive in any order), the emitted index
sequence of the polling limited scheduler and of the thread-per-target
runner is exactly `0 .. N-1` in discovery order. -/
theorem orderedEmission_C1 (env : Env) (N maxConn : Nat) (hcap : 1 ≤ maxConn)
    (results : List (Nat × Bool)) (hres : (results.map Prod.fst).Perm (List.range N)) :
    (∀ fuel final, runParallelLimited env N maxConn fuel = some final →
      final.emitted.map CompletedOutput.index = List.range N)
    ∧ (∃ fuel final, runParallelLimited env N maxConn fuel = some final ∧
        final.emitted.map CompletedOutput.index = List.range N)
    ∧ nitEmittedIndices results = List.range N := by
  refine ⟨?_, ?_, nitEmitted_eq_range hres⟩
  · intro fuel final hrun
    exact (runParallelLimited_emits hrun).1
  · obtain ⟨fuel, final, hrun⟩ := runParallelLimited_exists env N maxConn hcap
    exact ⟨fuel, final, hrun, (runParallelLimited_emits hrun).1⟩

theorem orderedEmission_C1_witness :
    (∃ fuel final, runParallelLimited envC1 3 1 fuel = some final ∧
      final.emitted.map CompletedOutput.index = List.range 3)
    ∧ nitEmittedIndices [(2, false), (0, true), (1, false)] = List.range 3 := by
  have h := orderedEmission_C1 envC1 3 1 (by decide)
    [(2, false), (0, true), (1, false)] (by decide)
  exact ⟨h.2.1, h.2.2⟩

/-- C2 counterexample: with a URL scheme override the rendered command string
quotes the `-c` configuration value, so it is not byte-identical to the
program name and argument bytes that `spawn` passes to the process. -/
theorem renderSpawnMismatch_C2 :
    commandStringWithScheme ⟨"/repos/a", ["fetch"]⟩ (some .ssh)
      ≠ flattenInvocation spawnProgram
          (spawnArgs ⟨"/repos/a", ["fetch"]⟩ (some .ssh)) := by
  decide

/-- C2 (amended): for every GitCommand with a nonempty argument list and no
url_scheme override, the string returned by command_string_with_scheme is
byte-identical to the invocation spawn would execute, i.e. the program name
and argument bytes joined by single spaces. -/
theorem renderEqSpawnNoScheme_C2 (p a : String) (rest : List String) :
    commandStringWithScheme ⟨p, a :: rest⟩ none
      = flattenInvocation spawnProgram (spawnArgs ⟨p, a :: rest⟩ none) := by
  rw [commandStringWithScheme, schemeDisplayArgs, flattenInvocation, spawnProgram,
    spawnArgs, schemeSpawnArgs]
  simp only [List.nil_append, List.cons_append]
  rw [joinSpace_cons_cons, joinSpace_cons_cons, joinSpace_cons_cons]
  rw [show ("git " : String) = "git" ++ " " from by decide,
    show ("-C " : String) = "-C" ++ " " from by decide]
  simp only [String.append_assoc]
  rfl

/-- C3: for every environment (including ones where some spawns fail), the
limited scheduler terminates with exactly one emitted outcome per target
index and none for other indices, and the unlimited strategy prints exactly
one outcome per target. -/
theorem exactlyOneOutcome_C3 (env : Env) (N maxConn : Nat) (hcap : 1 ≤ maxConn) :
    (∃ fuel final, runParallelLimited env N maxConn fuel = some final ∧
      (∀ k, k < N → (final.emitted.map CompletedOutput.index).count k = 1) ∧
      (∀ k, N ≤ k → (final.emitted.map CompletedOutput.index).count k = 0))
    ∧ (∀ k, k < N →
        ((runParallelUnlimited env N).map CompletedOutput.index).count k = 1) := by
  constructor
  · obtain ⟨fuel, final, hrun⟩ := runParallelLimited_exists env N maxConn hcap
    have hemit := (runParallelLimited_emits hrun).1
    refine ⟨fuel, final, hrun, ?_, ?_⟩
    · intro k hk
      rw [hemit, count_range_eq, if_pos hk]
    · intro k hk
      rw [hemit, count_range_eq, if_neg (by omega)]
  · intro k hk
    rw [runParallelUnlimited_map, count_range_eq, if_pos hk]

theorem exactlyOneOutcome_C3_witness :
    ∃ fuel final, runParallelLimited envC7 3 1 fuel = some final ∧
      (∀ k, k < 3 → (final.emitted.map CompletedOutput.index).count k = 1) ∧
      (∀ k, 3 ≤ k → (final.emitted.map CompletedOutput.index).count k = 0) :=
  (exactlyOneOutcome_C3 envC7 3 1 (by decide)).1

/-- C4: with a cap `c`, `0 < c < N`, the polling scheduler's active set never
exceeds `c` targets after the initial burst or after any number of loop
iterations, the poll pass never grows the active set, the spawn loop
preserves the bound, and in the thread-per-target strategy the number of
threads holding a semaphore permit never exceeds the permit count in any
reachable semaphore state. -/
theorem concurrencyCap_C4 (env : Env) (N maxConn n : Nat) (hpos : 0 < maxConn)
    (hlt : maxConn < N) (cap : Nat) (s : SemState) (hreach : SemReachable cap s)
    (i : Nat) (a : List ActiveProc) (c : List CompletedOutput)
    (hbound : a.length ≤ maxConn) :
    (iterSched env N maxConn n).active.length ≤ maxConn
    ∧ (pollLoop env i a c).1.length ≤ a.length
    ∧ (spawnLoop env N maxConn i a c).2.1.length ≤ maxConn
    ∧ s.running ≤ cap := by
  refine ⟨(iterSched_inv env N maxConn n).active_cap,
    pollLoop_length env i a c,
    spawnLoop_cap env N maxConn i a c hbound, ?_⟩
  have := semReachable_sum cap s hreach
  omega

theorem concurrencyCap_C4_witness :
    (iterSched envC1 3 1 2).active.length ≤ 1
    ∧ (pollLoop envC1 0 [] []).1.length ≤ ([] : List ActiveProc).length
    ∧ (spawnLoop envC1 3 1 0 [] []).2.1.length ≤ 1
    ∧ SemState.running ⟨1, 1⟩ ≤ 2 :=
  concurrencyCap_C4 envC1 3 1 2 (by decide) (by decide) 2 ⟨1, 1⟩
    (Relation.ReflTransGen.single (SemStep.acquire 1 0)) 0 [] [] (by decide)

/-- C5 counterexample: `format_repo_name` does not left-pad a short name;
at `"my-repo"` the label with seventeen leading spaces is not produced
(the name is left-aligned, i.e. padded on the right). -/
theorem formatLeftPadFalse_C5 :
    ¬ formatRepoName (strBytes "my-repo")
      = some ([91] ++ (List.replicate 17 32 ++ strBytes "my-repo") ++ [93]) := by
  decide

/-- C5 (amended): for every ASCII name, format_repo_name with width 24
produces a bracketed label of total length 26: a name of at most 24 bytes is
left-aligned (padded on the right with spaces) to width 24, and a longer
name is truncated to its first 20 bytes followed by the fixed marker
`"-..."`. -/
theorem formatRepoNameAscii_C5 (name : List Nat) (hascii : ∀ b ∈ name, b < 128) :
    (name.length ≤ 24 →
      formatRepoName name
        = some ([91] ++ (name ++ List.replicate (24 - name.length) 32) ++ [93]))
    ∧ (24 < name.length →
      formatRepoName name = some ([91] ++ (name.take 20 ++ truncMarker) ++ [93]))
    ∧ (∀ out, formatRepoName name = some out → out.length = 26) := by
  have hcc : charCount name = name.length := charCount_ascii hascii
  by_cases hlen : 24 < name.length
  · have hb : isCharBoundaryByte (name.getD (MAX_REPO_NAME_WIDTH - 4) 0) = true := by
      have h20 : MAX_REPO_NAME_WIDTH - 4 < name.length := by
        rw [MAX_REPO_NAME_WIDTH]
        omega
      have hmem : name.getD (MAX_REPO_NAME_WIDTH - 4) 0 ∈ name := by
        rw [List.getD_eq_getElem name 0 h20]
        exact List.getElem_mem h20
      have := hascii _ hmem
      rw [isCharBoundaryByte]
      simp only [Bool.or_eq_true, decide_eq_true_eq]
      omega
    have heq : formatRepoName name
        = some ([91] ++ (name.take 20 ++ truncMarker) ++ [93]) := by
      rw [formatRepoName, if_pos (by rw [MAX_REPO_NAME_WIDTH]; omega), if_pos hb]
      have hdisp : padDisplay (name.take (MAX_REPO_NAME_WIDTH - 4) ++ truncMarker)
          = name.take 20 ++ truncMarker := by
        have hccd : charCount (name.take (MAX_REPO_NAME_WIDTH - 4) ++ truncMarker) = 24 := by
          have : ∀ b ∈ name.take (MAX_REPO_NAME_WIDTH - 4) ++ truncMarker, b < 128 := by
            intro b hb2
            rcases List.mem_append.mp hb2 with hb2 | hb2
            · exact hascii b (List.mem_of_mem_take hb2)
            · rw [truncMarker] at hb2
              simp at hb2
              omega
          rw [charCount_ascii this, List.length_append, List.length_take]
          rw [MAX_REPO_NAME_WIDTH, truncMarker]
          simp
          omega
        rw [padDisplay, hccd, MAX_REPO_NAME_WIDTH]
        simp
      rw [hdisp]
    refine ⟨fun h => absurd h (by omega), fun _ => heq, ?_⟩
    intro out hout
    rw [heq] at hout
    cases hout
    simp [truncMarker]
    omega
  · have heq : formatRepoName name
        = some ([91] ++ (name ++ List.replicate (24 - name.length) 32) ++ [93]) := by
      rw [formatRepoName, if_neg (by rw [MAX_REPO_NAME_WIDTH]; omega)]
      rw [padDisplay, hcc, MAX_REPO_NAME_WIDTH]
    refine ⟨fun _ => heq, fun h => absurd h hlen, ?_⟩
    intro out hout
    rw [heq] at hout
    cases hout
    simp
    omega

theorem formatRepoNameAscii_C5_witness :
    formatRepoName (strBytes "my-repo")
      = some ([91] ++ (strBytes "my-repo" ++ List.replicate 17 32) ++ [93]) :=
  (formatRepoNameAscii_C5 (strBytes "my-repo") (by decide)).1 (by decide)

/-- C6: a cap of 0 and any cap at least the target count both select the
unlimited spawn-all path (which issues one spawn per target up front, in
order) in both implementations, and a cap strictly between 0 and the target
count selects the limited or semaphore path. -/
theorem capSelection_C6 (N cap : Nat) :
    (cap = 0 → selectStrategy false cap N = .unlimited ∧ useSemaphore cap N = false)
    ∧ (N ≤ cap → selectStrategy false cap N = .unlimited ∧ useSemaphore cap N = false)
    ∧ (0 < cap → cap < N →
        selectStrategy false cap N = .limited ∧ useSemaphore cap N = true)
    ∧ (unlimitedSpawnEffects N).length = N
    ∧ (∀ i, Effect.spawnTarget i ∈ unlimitedSpawnEffects N ↔ i < N) := by
  refine ⟨?_, ?_, ?_, ?_, ?_⟩
  · intro h
    subst h
    constructor
    · rw [selectStrategy, if_neg (by simp), if_pos (Or.inl rfl)]
    · rw [useSemaphore]
      simp
  · intro h
    constructor
    · rw [selectStrategy, if_neg (by simp), if_pos (Or.inr h)]
    · rw [useSemaphore]
      simp
      omega
  · intro h1 h2
    constructor
    · rw [selectStrategy, if_neg (by simp), if_neg (by omega)]
    · rw [useSemaphore]
      simp
      omega
  · rw [unlimitedSpawnEffects, List.length_map, List.length_range]
  · intro i
    rw [unlimitedSpawnEffects]
    constructor
    · intro h
      rcases List.mem_map.mp h with ⟨j, hj, hji⟩
      cases hji
      exact List.mem_range.mp hj
    · intro h
      exact List.mem_map.mpr ⟨i, List.mem_range.mpr h, rfl⟩

theorem capSelection_C6_witness :
    (selectStrategy false 0 5 = .unlimited ∧ useSemaphore 0 5 = false)
    ∧ (selectStrategy false 7 5 = .unlimited ∧ useSemaphore 7 5 = false)
    ∧ (selectStrategy false 2 5 = .limited ∧ useSemaphore 2 5 = true) :=
  ⟨(capSelection_C6 5 0).1 rfl, (capSelection_C6 5 7).2.1 (by decide),
    (capSelection_C6 5 2).2.2.1 (by decide) (by decide)⟩

/-- C7: when a target's spawn fails, `spawn_process` records a Failure
outcome for it at its own index immediately, leaves the active set (the
occupied slots) unchanged, and the whole scheduler still terminates with
every target's outcome emitted in order, so admission of later targets is
not stalled. -/
theorem spawnFailure_C7 (env : Env) (k : Nat) (a : List ActiveProc)
    (c : List CompletedOutput) (hfail : env.spawnOk k = false) (N maxConn : Nat)
    (hcap : 1 ≤ maxConn) :
    spawnProcess env k a c = (a, c ++ [⟨k, true⟩])
    ∧ (∃ fuel final, runParallelLimited env N maxConn fuel = some final ∧
        final.emitted.map CompletedOutput.index = List.range N) := by
  constructor
  · rw [spawnProcess, if_neg (by rw [hfail]; simp)]
  · obtain ⟨fuel, final, hrun⟩ := runParallelLimited_exists env N maxConn hcap
    exact ⟨fuel, final, hrun, (runParallelLimited_emits hrun).1⟩

theorem spawnFailure_C7_witness :
    spawnProcess envC7 1 [] [] = ([], [⟨1, true⟩])
    ∧ (∃ fuel final, runParallelLimited envC7 3 1 fuel = some final ∧
        final.emitted.map CompletedOutput.index = List.range 3) := by
  have h := spawnFailure_C7 envC7 1 [] [] (by decide) 3 1 (by decide)
  exact ⟨h.1, h.2⟩

/-- C8: in dry-run mode run_parallel emits exactly one rendered command line
per target in discovery order, never spawns a process, and takes the dry-run
path regardless of the concurrency cap. -/
theorem dryRun_C8 (cmds : List GitCommand) (scheme : Option UrlScheme) (cap N : Nat) :
    (dryRunEffects cmds scheme).length = cmds.length
    ∧ (∀ i, (dryRunEffects cmds scheme).get? i
        = (cmds.get? i).map fun cc => .println (commandStringWithScheme cc scheme))
    ∧ (∀ k, Effect.spawnTarget k ∉ dryRunEffects cmds scheme)
    ∧ selectStrategy true cap N = .dryRun := by
  refine ⟨List.length_map _ _, ?_, ?_, ?_⟩
  · intro i
    rw [dryRunEffects, List.get?_map]
  · intro k hk
    rcases List.mem_map.mp hk with ⟨cc, _, hcc⟩
    cases hcc
  · rw [selectStrategy, if_pos rfl]

theorem dryRun_C8_witness :
    (dryRunEffects [⟨"/a", ["status"]⟩, ⟨"/b", ["pull"]⟩] none).length = 2
    ∧ (Effect.spawnTarget 0 ∉ dryRunEffects [⟨"/a", ["status"]⟩, ⟨"/b", ["pull"]⟩] none)
    ∧ selectStrategy true 4 2 = .dryRun := by
  have h := dryRun_C8 [⟨"/a", ["status"]⟩, ⟨"/b", ["pull"]⟩] none 4 2
  exact ⟨h.1, h.2.2.1 0, h.2.2.2⟩

/-! ## Output collection (`collect_child_output`) -/

/-- One `read_to_end(&mut buf)` call on a captured pipe: it either succeeds,
or fails with an io error after having placed some bytes in the buffer. -/
inductive ReadOutcome
  | success (bytes : List Nat)
  | ioError (bytes : List Nat)
deriving DecidableEq

/-- The buffer contents after `let _ = pipe.read_to_end(&mut buf)`: the
result, error included, is discarded; only the buffered bytes remain. -/
def readBytes : ReadOutcome → List Nat
  | .success bytes => bytes
  | .ioError bytes => bytes

/-- The captured pipes of a finished child (`child.stdout`, `child.stderr`). -/
structure ChildPipes where
  stdout : Option ReadOutcome
  stderr : Option ReadOutcome
deriving DecidableEq

/-- `std::process::Output`, with the exit status abstracted to a number. -/
structure Output where
  status : Nat
  stdout : List Nat
  stderr : List Nat
deriving DecidableEq

/-- `collect_child_output`: drain both pipes into buffers, discard the read
results (`let _ = … .read_to_end(…)`), and always build an `Output` around
the given exit status. -/
def collectChildOutput (child : ChildPipes) (status : Nat) : Output :=
  { status := status
    stdout := match child.stdout with
      | some r => readBytes r
      | none => []
    stderr := match child.stderr with
      | some r => readBytes r
      | none => [] }

/-- `Result<Output, io::Error>` as buffered in a `CompletedOutput`. -/
inductive ProcResult
  | ok (out : Output)
  | err
deriving DecidableEq

/-- The `Ok(Some(status))` branch of the polling loop: the collected output
is buffered as `Ok(output)`, whatever happened during the reads. -/
def finishedOutcome (child : ChildPipes) (status : Nat) : ProcResult :=
  .ok (collectChildOutput child status)

/-- C9 counterexample: in the polling implementation a target whose process
launched and whose output collection then failed yields no Failure outcome.
`collect_child_output` discards the `read_to_end` error and the loop buffers
the success-shaped `Ok` output built from the partially read bytes, exactly
as for a clean success — contradicting the claim that such a target yields
a Failure outcome. -/
theorem collectionFailureIsSilent_C9 :
    finishedOutcome ⟨some (.ioError [65]), some (.success [])⟩ 0
        = .ok ⟨0, [65], []⟩
    ∧ finishedOutcome ⟨some (.ioError [65]), some (.success [])⟩ 0 ≠ .err := by
  decide

/-- C9 (amended): when a target's process launches and status retrieval
(`try_wait`) subsequently fails, the polling run still terminates with every
index emitted in order and that target's emitted outcome is the Failure
outcome at its own index, so the failure is routed through the same
ordered-emission path and blocks no other target; the thread-per-target
implementation likewise routes a launched-but-failed target's Failure
through the same index-sorted emission.  A failure during output collection
in the polling implementation, by contrast, is discarded by
`collect_child_output`: the target always yields a success-shaped `Ok`
outcome around the exit status. -/
theorem runtimeFailure_C9 (env : Env) (N maxConn i : Nat) (hcap : 1 ≤ maxConn)
    (hi : i < N) (hspawn : env.spawnOk i = true) (herr : env.pollErr i = true)
    (child : ChildPipes) (status : Nat) (results : List (Nat × Bool))
    (hres : (results.map Prod.fst).Perm (List.range N)) (hmem : (i, true) ∈ results) :
    (∃ fuel final, runParallelLimited env N maxConn fuel = some final ∧
      final.emitted.map CompletedOutput.index = List.range N ∧
      CompletedOutput.mk i true ∈ final.emitted)
    ∧ (∃ out, finishedOutcome child status = .ok out ∧ out.status = status)
    ∧ (i, true) ∈ sortByIdx results ∧ nitEmittedIndices results = List.range N := by
  refine ⟨?_, ⟨collectChildOutput child status, rfl, rfl⟩, ?_, nitEmitted_eq_range hres⟩
  · obtain ⟨fuel, final, hrun⟩ := runParallelLimited_exists env N maxConn hcap
    obtain ⟨hemit, hinv⟩ := runParallelLimited_emits hrun
    refine ⟨fuel, final, hrun, hemit, ?_⟩
    have hmemmap : i ∈ final.emitted.map CompletedOutput.index := by
      rw [hemit]
      exact List.mem_range.mpr hi
    rcases List.mem_map.mp hmemmap with ⟨e, he, hei⟩
    have herrflag := hinv.emitted_err e he
    rw [hei, hspawn, herr] at herrflag
    have heq : e = CompletedOutput.mk i true := by
      cases e
      simp at hei herrflag
      rw [hei]
      rw [herrflag]
    rw [← heq]
    exact he
  · exact (List.perm_insertionSort _ results).mem_iff.mpr hmem

theorem runtimeFailure_C9_witness :
    (∃ fuel final, runParallelLimited envC9 3 1 fuel = some final ∧
      final.emitted.map CompletedOutput.index = List.range 3 ∧
      CompletedOutput.mk 2 true ∈ final.emitted)
    ∧ (∃ out, finishedOutcome ⟨some (.ioError [65]), some (.success [])⟩ 7 = .ok out ∧
        out.status = 7)
    ∧ (2, true) ∈ sortByIdx [(2, true), (0, false), (1, false)]
    ∧ nitEmittedIndices [(2, true), (0, false), (1, false)] = List.range 3 :=
  runtimeFailure_C9 envC9 3 1 2 (by decide) (by decide) (by decide) (by decide)
    ⟨some (.ioError [65]), some (.success [])⟩ 7 [(2, true), (0, false), (1, false)]
    (by decide) (by decide)

/-- C10: format_repo_name panics on some inputs: whenever the name is longer
than 24 bytes and the byte at offset 20 is a UTF-8 continuation byte (a
multi-byte character straddles the truncation point), the byte slice panics
and no label is returned. -/
theorem formatPanic_C10 (name : List Nat) (hlen : MAX_REPO_NAME_WIDTH < name.length)
    (hcont : isCharBoundaryByte (name.getD (MAX_REPO_NAME_WIDTH - 4) 0) = false) :
    formatRepoName name = none := by
  rw [formatRepoName, if_pos hlen, if_neg]
  rw [hcont]
  simp

theorem formatPanic_C10_witness :
    formatRepoName (List.replicate 19 97 ++ [195, 169] ++ List.replicate 4 97) = none :=
  formatPanic_C10 (List.replicate 19 97 ++ [195, 169] ++ List.replicate 4 97)
    (by decide) (by decide)

end Fit
